import Mathlib

/-!
# Verification of the `dymean` spell-suggestion engine

Shallow embedding of the Go package `dymean` (bloom_filter.go, levenshtein.go,
language.go, did_you_mean.go) and proofs of the specification claims.

Modelling conventions:
* A Go string is modelled at the level the code manipulates it:
  - `Word` (`List Nat`) is a sequence of Unicode code points, matching Go's
    `for _, r := range word` rune iteration used by the normalizers, the
    validators, the language detector and the candidate generators (which only
    ever splice ASCII runes, so byte indices and rune indices coincide at every
    splice point).
  - byte-level functions (the FNV-1a hash and `LevenshteinDistance`, which
    index `s[i]` directly) receive the UTF-8 encoding (`utf8Encode`).
* Machine integers are `Nat` with explicit `% 2^64` where Go's `uint64`
  arithmetic overflows (the FNV-1a multiply).
* Go `float64` similarity scores are modelled as exact rationals `ℚ`; the
  operations involved are `1 - d/L` on small naturals.
* Go maps used as sets (`map[string]bool`) are modelled as lists with
  set-semantic insertion; Go map iteration order is unspecified, so any fixed
  enumeration order is a faithful refinement (no claim depends on it).
-/

/-- A word as a sequence of Unicode code points (Go rune sequence). -/
abbrev Word := List Nat

/-- Code points of a Lean string literal, used to transcribe the Go string
constants of the source. -/
def runes (s : String) : Word := s.data.map Char.toNat

/-- UTF-8 encoding of one code point (what Go's `[]byte(string(r))` produces
for valid scalar values). -/
def utf8EncodeChar (c : Nat) : List Nat :=
  if c < 0x80 then [c]
  else if c < 0x800 then [0xC0 + c / 64, 0x80 + c % 64]
  else if c < 0x10000 then [0xE0 + c / 4096, 0x80 + (c / 64) % 64, 0x80 + c % 64]
  else [0xF0 + c / 262144, 0x80 + (c / 4096) % 64, 0x80 + (c / 64) % 64, 0x80 + c % 64]

/-- UTF-8 encoding of a word (Go's `[]byte(item)`). -/
def utf8Encode (w : Word) : List Nat := w.flatMap utf8EncodeChar

/-- FNV-1a 64-bit offset basis (Go `hash/fnv`). -/
def fnv64OffsetBasis : Nat := 14695981039346656037

/-- FNV-1a 64-bit prime (Go `hash/fnv`). -/
def fnv64Prime : Nat := 1099511628211

/-- FNV-1a 64-bit hash of a byte sequence, as computed by Go's
`fnv.New64a()` after `Reset; Write bytes; Sum64`. -/
def fnv1a64 (bytes : List Nat) : Nat :=
  bytes.foldl (fun h b => ((h ^^^ b) * fnv64Prime) % 2 ^ 64) fnv64OffsetBasis

/-! ## bloom_filter.go : BloomFilter -/

/-- `BloomFilter` (bloom_filter.go). The Go struct also holds a slice of
`hash.Hash64` objects, but every use resets them before writing, so each
probe is the pure function `probe` below and the hash objects carry no state
between operations; only the bit array, the size and the probe count remain. -/
structure BloomFilter where
  bitArray : List Bool
  size : Nat
  numHashFuncs : Nat

/-- `NewBloomFilter` (bloom_filter.go): an all-clear bit array of the given
size. -/
def NewBloomFilter (size : Nat) (numHashFuncs : Nat) : BloomFilter :=
  { bitArray := List.replicate size false
    size := size
    numHashFuncs := numHashFuncs }

/-- The `i`-th probe index of `item`: FNV-1a over the item's UTF-8 bytes
followed by the salt byte `byte(i)`, reduced `mod size` (bloom_filter.go,
both `Add` and `Contains`). -/
def BloomFilter.probe (bf : BloomFilter) (item : Word) (i : Nat) : Nat :=
  fnv1a64 (utf8Encode item ++ [i % 256]) % bf.size

/-- `BloomFilter.Add` (bloom_filter.go): set the bit at every probe index. -/
def BloomFilter.Add (bf : BloomFilter) (item : Word) : BloomFilter :=
  { bf with
    bitArray :=
      (List.range bf.numHashFuncs).foldl
        (fun arr i => arr.set (bf.probe item i) true) bf.bitArray }

/-- `BloomFilter.Contains` (bloom_filter.go): true iff every probed bit is
set. -/
def BloomFilter.Contains (bf : BloomFilter) (item : Word) : Bool :=
  (List.range bf.numHashFuncs).all fun i => bf.bitArray.getD (bf.probe item i) false

/-- `BloomFilter.AddWords` (bloom_filter.go). -/
def BloomFilter.AddWords (bf : BloomFilter) (words : List Word) : BloomFilter :=
  words.foldl BloomFilter.Add bf

/-- Well-formedness maintained by the constructor: the bit array has exactly
`size` entries and the size is positive (Go panics on `hash % 0`, so a
zero-size filter has no defined `Add`). -/
def BloomFilter.WF (bf : BloomFilter) : Prop :=
  bf.bitArray.length = bf.size ∧ 0 < bf.size

theorem BloomFilter.add_size (bf : BloomFilter) (w : Word) :
    (bf.Add w).size = bf.size := rfl

theorem BloomFilter.add_numHashFuncs (bf : BloomFilter) (w : Word) :
    (bf.Add w).numHashFuncs = bf.numHashFuncs := rfl

theorem foldl_set_length (idxs : List Nat) (l : List Bool) :
    (idxs.foldl (fun a i => a.set i true) l).length = l.length := by
  induction idxs generalizing l with
  | nil => rfl
  | cons i idxs ih => simpa [List.foldl_cons, List.length_set] using ih (l.set i true)

theorem BloomFilter.add_length (bf : BloomFilter) (w : Word) :
    (bf.Add w).bitArray.length = bf.bitArray.length := by
  simpa [BloomFilter.Add, List.foldl_map] using
    foldl_set_length ((List.range bf.numHashFuncs).map (bf.probe w)) bf.bitArray

theorem getD_set_mono (l : List Bool) (i j : Nat)
    (h : l.getD j false = true) : (l.set i true).getD j false = true := by
  induction l generalizing i j with
  | nil => simp at h
  | cons a l ih =>
    cases i with
    | zero =>
      cases j with
      | zero => rfl
      | succ j => simpa using h
    | succ i =>
      cases j with
      | zero => simpa using h
      | succ j => simpa using ih i j (by simpa using h)

theorem getD_set_self (l : List Bool) (i : Nat) (h : i < l.length) :
    (l.set i true).getD i false = true := by
  induction l generalizing i with
  | nil => simp at h
  | cons a l ih =>
    cases i with
    | zero => rfl
    | succ i => simpa using ih i (by simpa using h)

theorem foldl_set_mono (idxs : List Nat) (l : List Bool) (j : Nat)
    (h : l.getD j false = true) :
    (idxs.foldl (fun a i => a.set i true) l).getD j false = true := by
  induction idxs generalizing l with
  | nil => simpa using h
  | cons i idxs ih =>
    simpa [List.foldl_cons] using ih (l.set i true) (getD_set_mono l i j h)

theorem foldl_set_mem (idxs : List Nat) (l : List Bool) (j : Nat)
    (hj : j ∈ idxs) (hlt : j < l.length) :
    (idxs.foldl (fun a i => a.set i true) l).getD j false = true := by
  induction idxs generalizing l with
  | nil => simp at hj
  | cons i idxs ih =>
    rcases List.mem_cons.mp hj with h | h
    · subst h
      exact foldl_set_mono idxs (l.set j true) j (getD_set_self l j hlt)
    · exact ih (l.set i true) h (by simpa [List.length_set] using hlt)

theorem BloomFilter.probe_lt (bf : BloomFilter) (item : Word) (i : Nat)
    (h : 0 < bf.size) : bf.probe item i < bf.size :=
  Nat.mod_lt _ h

/-- After `Add item`, every probed bit of `item` is set. -/
theorem BloomFilter.getD_add_probe (bf : BloomFilter) (item : Word)
    (hwf : bf.WF) (i : Nat) (hi : i < bf.numHashFuncs) :
    (bf.Add item).bitArray.getD (bf.probe item i) false = true := by
  have harr : (bf.Add item).bitArray =
      ((List.range bf.numHashFuncs).map (bf.probe item)).foldl
        (fun a j => a.set j true) bf.bitArray := by
    simp [BloomFilter.Add, List.foldl_map]
  rw [harr]
  refine foldl_set_mem _ _ _ ?_ ?_
  · exact List.mem_map_of_mem _ (List.mem_range.mpr hi)
  · exact hwf.1 ▸ bf.probe_lt item i hwf.2

/-- `Add` then `Contains` on the same item yields true. -/
theorem BloomFilter.contains_add_self (bf : BloomFilter) (item : Word)
    (hwf : bf.WF) : (bf.Add item).Contains item = true := by
  unfold BloomFilter.Contains
  rw [List.all_eq_true]
  intro i hi
  have hi' : i < bf.numHashFuncs := List.mem_range.mp (by simpa using hi)
  have hprobe : (bf.Add item).probe item i = bf.probe item i := rfl
  rw [BloomFilter.add_numHashFuncs] at *
  rw [hprobe]
  exact bf.getD_add_probe item hwf i hi'

/-- `Contains` is monotone under `Add`: bits are only ever set. -/
theorem BloomFilter.contains_mono (bf : BloomFilter) (item other : Word)
    (h : bf.Contains item = true) : (bf.Add other).Contains item = true := by
  unfold BloomFilter.Contains at *
  rw [List.all_eq_true] at *
  intro i hi
  have hbit := h i (by simpa using hi)
  have harr : (bf.Add other).bitArray =
      ((List.range bf.numHashFuncs).map (bf.probe other)).foldl
        (fun a j => a.set j true) bf.bitArray := by
    simp [BloomFilter.Add, List.foldl_map]
  have hprobe : (bf.Add other).probe item i = bf.probe item i := rfl
  rw [hprobe, harr]
  exact foldl_set_mono _ _ _ (by simpa using hbit)

theorem BloomFilter.wf_add (bf : BloomFilter) (w : Word) (hwf : bf.WF) :
    (bf.Add w).WF :=
  ⟨by rw [bf.add_length w, bf.add_size w]; exact hwf.1,
   by rw [bf.add_size w]; exact hwf.2⟩

theorem BloomFilter.wf_new (size numHashFuncs : Nat) (h : 0 < size) :
    (NewBloomFilter size numHashFuncs).WF :=
  ⟨List.length_replicate _ _, h⟩

/-- Folding `Add` over a word list keeps `Contains` true and keeps the
filter well-formed. -/
theorem BloomFilter.contains_addWords_of_contains (ws : List Word)
    (bf : BloomFilter) (w : Word) (h : bf.Contains w = true) :
    (bf.AddWords ws).Contains w = true := by
  induction ws generalizing bf with
  | nil => simpa [BloomFilter.AddWords] using h
  | cons x ws ih =>
    have : (bf.Add x).AddWords ws = bf.AddWords (x :: ws) := rfl
    rw [← this]
    exact ih (bf.Add x) (bf.contains_mono w x h)

theorem BloomFilter.wf_addWords (ws : List Word) (bf : BloomFilter)
    (hwf : bf.WF) : (bf.AddWords ws).WF := by
  induction ws generalizing bf with
  | nil => simpa [BloomFilter.AddWords] using hwf
  | cons x ws ih =>
    have : (bf.Add x).AddWords ws = bf.AddWords (x :: ws) := rfl
    rw [← this]
    exact ih (bf.Add x) (bf.wf_add x hwf)

/-- **C1.** No false negatives: for every filter created by `NewBloomFilter`
with a positive size (a zero size makes Go's `Add` panic on `hash % 0`, so no
such filter supports any `Add` call) and every finite sequence of `Add` calls
on it, `Contains w` returns true for every word `w` that was passed to `Add`
in that sequence, regardless of which or how many other words were added. -/
theorem bloomFilter_no_false_negatives (size numHashFuncs : Nat)
    (hsize : 0 < size) (ws : List Word) (w : Word) (hw : w ∈ ws) :
    ((NewBloomFilter size numHashFuncs).AddWords ws).Contains w = true := by
  suffices h : ∀ bf : BloomFilter, bf.WF → ∀ ws, w ∈ ws →
      (bf.AddWords ws).Contains w = true from
    h _ (BloomFilter.wf_new size numHashFuncs hsize) ws hw
  intro bf hwf ws hw
  induction ws generalizing bf with
  | nil => simp at hw
  | cons x ws ih =>
    have hstep : (bf.Add x).AddWords ws = bf.AddWords (x :: ws) := rfl
    rcases List.mem_cons.mp hw with h | h
    · subst h
      rw [← hstep]
      exact BloomFilter.contains_addWords_of_contains ws (bf.Add w) w
        (bf.contains_add_self w hwf)
    · rw [← hstep]
      exact ih (bf.Add x) (bf.wf_add x hwf) h

/-- Witness for C1 at a concrete input. -/
theorem bloomFilter_no_false_negatives_witness :
    0 < 11 ∧ runes "q" ∈ [runes "w", runes "q"] ∧
      ((NewBloomFilter 11 2).AddWords [runes "w", runes "q"]).Contains
        (runes "q") = true :=
  ⟨by decide, by decide,
   bloomFilter_no_false_negatives 11 2 (by decide) _ _ (by decide)⟩

/-! ## levenshtein.go : LevenshteinDistance, CalculateSimilarity

The Go code fills a `(len s1 + 1) x (len s2 + 1)` matrix row by row and reads
the bottom-right entry; `levRow s1 s2 i j` below is `matrix[i][j]`, defined by
the same base cases and the same three-way minimum recurrence, computed row by
row (`levRowStep` builds row `i+1` from row `i`, exactly as the loop does).
The functions index raw bytes (`s1[i-1] != s2[j-1]`), so they are stated over
byte sequences. -/

/-- `min` (levenshtein.go): minimum of three integers, with the source's
branch structure. -/
def goMin (a b c : Nat) : Nat :=
  if a < b ∧ a < c then a else if b < c then b else c

theorem goMin_eq (a b c : Nat) : goMin a b c = min a (min b c) := by
  unfold goMin
  split
  · omega
  · split <;> omega

/-- Substitution cost of the DP cell `(i+1, j+1)`: `0` if `s1[i] == s2[j]`
else `1` (levenshtein.go). -/
def levCost (s1 s2 : List Nat) (i j : Nat) : Nat :=
  if s1.getD i 0 ≠ s2.getD j 0 then 1 else 0

/-- Row `i+1` of the DP matrix, built from row `i` (`prev`); entry `0` is the
first-column initialization `matrix[i+1][0] = i+1`. -/
def levRowStep (s1 s2 : List Nat) (i : Nat) (prev : Nat → Nat) : Nat → Nat
  | 0 => i + 1
  | j + 1 =>
    goMin (prev (j + 1) + 1) (levRowStep s1 s2 i prev j + 1)
      (prev j + levCost s1 s2 i j)

/-- `levRow s1 s2 i j = matrix[i][j]` of the Go DP. -/
def levRow (s1 s2 : List Nat) : Nat → Nat → Nat
  | 0 => fun j => j
  | i + 1 => levRowStep s1 s2 i (levRow s1 s2 i)

theorem levRow_zero (s1 s2 : List Nat) (j : Nat) : levRow s1 s2 0 j = j := rfl

theorem levRow_succ_zero (s1 s2 : List Nat) (i : Nat) :
    levRow s1 s2 (i + 1) 0 = i + 1 := rfl

theorem levRow_succ_succ (s1 s2 : List Nat) (i j : Nat) :
    levRow s1 s2 (i + 1) (j + 1) =
      goMin (levRow s1 s2 i (j + 1) + 1) (levRow s1 s2 (i + 1) j + 1)
        (levRow s1 s2 i j + levCost s1 s2 i j) := rfl

theorem levCost_le_one (s1 s2 : List Nat) (i j : Nat) :
    levCost s1 s2 i j ≤ 1 := by
  unfold levCost; split <;> simp

theorem levCost_eq_zero_iff (s1 s2 : List Nat) (i j : Nat) :
    levCost s1 s2 i j = 0 ↔ s1.getD i 0 = s2.getD j 0 := by
  unfold levCost; split <;> simp_all

/-- Every DP cell is bounded by the larger of its coordinates; in particular
the edit distance never exceeds the longer string's length. -/
theorem levRow_le_max (s1 s2 : List Nat) : ∀ i j, levRow s1 s2 i j ≤ max i j := by
  intro i
  induction i with
  | zero => intro j; simp [levRow_zero]
  | succ i ihi =>
    intro j
    induction j with
    | zero => simp [levRow_succ_zero]
    | succ j ihj =>
      rw [levRow_succ_succ, goMin_eq]
      have h3 := ihi j
      have hc := levCost_le_one s1 s2 i j
      omega

/-- A zero DP cell forces equal coordinates and an equal byte prefix. -/
theorem levRow_eq_zero (s1 s2 : List Nat) :
    ∀ i j, levRow s1 s2 i j = 0 →
      i = j ∧ ∀ k, k < i → s1.getD k 0 = s2.getD k 0 := by
  intro i
  induction i with
  | zero =>
    intro j h
    rw [levRow_zero] at h
    exact ⟨h.symm, fun k hk => absurd hk (Nat.not_lt_zero k)⟩
  | succ i ihi =>
    intro j h
    cases j with
    | zero => rw [levRow_succ_zero] at h; omega
    | succ j =>
      rw [levRow_succ_succ, goMin_eq] at h
      have hz : levRow s1 s2 i j = 0 ∧ levCost s1 s2 i j = 0 := by omega
      obtain ⟨hij, hpre⟩ := ihi j hz.1
      subst hij
      have heq := (levCost_eq_zero_iff s1 s2 i i).mp hz.2
      refine ⟨rfl, fun k hk => ?_⟩
      rcases Nat.lt_succ_iff_lt_or_eq.mp hk with hk' | hk'
      · exact hpre k hk'
      · subst hk'; exact heq

/-- Two lists agreeing in length and in `getD` at every position are equal. -/
theorem list_eq_of_getD (l1 l2 : List Nat) (hlen : l1.length = l2.length)
    (h : ∀ k, k < l1.length → l1.getD k 0 = l2.getD k 0) : l1 = l2 := by
  induction l1 generalizing l2 with
  | nil => cases l2 with
    | nil => rfl
    | cons b l2 => simp at hlen
  | cons a l1 ih =>
    cases l2 with
    | nil => simp at hlen
    | cons b l2 =>
      have h0 := h 0 (by simp)
      simp only [List.getD_cons_zero] at h0
      subst h0
      have : l1 = l2 := by
        refine ih l2 (by simpa using hlen) (fun k hk => ?_)
        simpa using h (k + 1) (by simpa using Nat.succ_lt_succ hk)
      rw [this]

/-- `LevenshteinDistance` (levenshtein.go): early returns for empty inputs,
then the DP matrix's bottom-right entry. -/
def LevenshteinDistance (s1 s2 : List Nat) : Nat :=
  if s1.length = 0 then s2.length
  else if s2.length = 0 then s1.length
  else levRow s1 s2 s1.length s2.length

theorem levenshteinDistance_le_max (s1 s2 : List Nat) :
    LevenshteinDistance s1 s2 ≤ max s1.length s2.length := by
  unfold LevenshteinDistance
  split
  · exact Nat.le_max_right _ _
  · split
    · exact Nat.le_max_left _ _
    · exact levRow_le_max s1 s2 _ _

theorem eq_of_levenshteinDistance_eq_zero (s1 s2 : List Nat)
    (h : LevenshteinDistance s1 s2 = 0) : s1 = s2 := by
  unfold LevenshteinDistance at h
  split at h
  · rename_i h1
    rw [List.length_eq_zero.mp h1, List.length_eq_zero.mp h]
  · split at h
    · rename_i h2
      rw [List.length_eq_zero.mp h2, List.length_eq_zero.mp h]
    · obtain ⟨hlen, hpre⟩ := levRow_eq_zero s1 s2 _ _ h
      exact list_eq_of_getD s1 s2 hlen hpre

/-- `CalculateSimilarity` (levenshtein.go); the `float64` score is modelled
as an exact rational. -/
def CalculateSimilarity (s1 s2 : List Nat) : ℚ :=
  if s1 = s2 then 1
  else
    let maxLen := max s1.length s2.length
    if maxLen = 0 then 1
    else 1 - (LevenshteinDistance s1 s2 : ℚ) / (maxLen : ℚ)

/-- **C7.** For all byte strings `a`, `b`: the similarity score lies in
`[0, 1]`; `CalculateSimilarity s s = 1`; and the score equals `1` exactly when
the two strings are equal. -/
theorem calculateSimilarity_range_refl_one_iff (a b : List Nat) :
    (0 ≤ CalculateSimilarity a b ∧ CalculateSimilarity a b ≤ 1) ∧
      CalculateSimilarity a a = 1 ∧
      (CalculateSimilarity a b = 1 ↔ a = b) := by
  have hrefl : ∀ s : List Nat, CalculateSimilarity s s = 1 := by
    intro s; simp [CalculateSimilarity]
  by_cases hab : a = b
  · subst hab
    exact ⟨⟨by rw [hrefl]; norm_num, by rw [hrefl]⟩, hrefl a, by simp [hrefl]⟩
  · have hL0 : max a.length b.length ≠ 0 := by
      intro h0
      apply hab
      have ha : a.length = 0 := by omega
      have hb : b.length = 0 := by omega
      rw [List.length_eq_zero.mp ha, List.length_eq_zero.mp hb]
    have hsim : CalculateSimilarity a b =
        1 - (LevenshteinDistance a b : ℚ) / (max a.length b.length : ℚ) := by
      simp only [CalculateSimilarity, if_neg hab, if_neg hL0]
      rw [Nat.cast_max]
    have hLpos : (0 : ℚ) < (max a.length b.length : ℚ) := by
      exact_mod_cast Nat.pos_of_ne_zero hL0
    have hdL : (LevenshteinDistance a b : ℚ) ≤ (max a.length b.length : ℚ) := by
      exact_mod_cast levenshteinDistance_le_max a b
    have hd0 : (0 : ℚ) ≤ (LevenshteinDistance a b : ℚ) := by positivity
    have hdiv_le : (LevenshteinDistance a b : ℚ) / (max a.length b.length : ℚ) ≤ 1 :=
      (div_le_one hLpos).mpr hdL
    have hdiv_0 : (0 : ℚ) ≤ (LevenshteinDistance a b : ℚ) / (max a.length b.length : ℚ) :=
      div_nonneg hd0 (le_of_lt hLpos)
    refine ⟨⟨by rw [hsim]; linarith, by rw [hsim]; linarith⟩, hrefl a, ?_⟩
    constructor
    · intro h1
      rw [hsim] at h1
      have hdivz : (LevenshteinDistance a b : ℚ) / (max a.length b.length : ℚ) = 0 := by
        linarith
      have hdz : (LevenshteinDistance a b : ℚ) = 0 := by
        rcases div_eq_zero_iff.mp hdivz with h | h
        · exact h
        · exact absurd h (ne_of_gt hLpos)
      have : LevenshteinDistance a b = 0 := by exact_mod_cast hdz
      exact absurd (eq_of_levenshteinDistance_eq_zero a b this) hab
    · intro h; exact absurd h hab

/-! ### Distance of a single substitution -/

/-- Number of positions `k < i` where the two byte strings disagree. -/
def countDiff (x y : List Nat) : Nat → Nat
  | 0 => 0
  | i + 1 => countDiff x y i + levCost x y i i

/-- The DP diagonal is bounded by the prefix Hamming count (substitutions
alone are one way through the matrix). -/
theorem levRow_diag_le_countDiff (x y : List Nat) :
    ∀ i, levRow x y i i ≤ countDiff x y i := by
  intro i
  induction i with
  | zero => simp [levRow_zero, countDiff]
  | succ i ih =>
    rw [levRow_succ_succ, goMin_eq]
    show _ ≤ countDiff x y i + levCost x y i i
    omega

theorem countDiff_eq_zero (x y : List Nat) (i : Nat)
    (h : ∀ k, k < i → x.getD k 0 = y.getD k 0) : countDiff x y i = 0 := by
  induction i with
  | zero => rfl
  | succ i ih =>
    have hc : levCost x y i i = 0 :=
      (levCost_eq_zero_iff x y i i).mpr (h i (Nat.lt_succ_self i))
    have := ih fun k hk => h k (Nat.lt_succ_of_lt hk)
    simp [countDiff, this, hc]

theorem countDiff_stable (x y : List Nat) (p : Nat) :
    ∀ j, (∀ k, p ≤ k → k < p + j → x.getD k 0 = y.getD k 0) →
      countDiff x y (p + j) = countDiff x y p := by
  intro j
  induction j with
  | zero => intro _; rfl
  | succ j ih =>
    intro h
    have hstep : levCost x y (p + j) (p + j) = 0 :=
      (levCost_eq_zero_iff x y _ _).mpr
        (h (p + j) (Nat.le_add_right p j) (by omega))
    have := ih fun k hk hk' => h k hk (by omega)
    show countDiff x y (p + j) + levCost x y (p + j) (p + j) = countDiff x y p
    rw [hstep, this]
    omega

theorem getD_append_lt (u w : List Nat) (k : Nat) (hk : k < u.length) :
    (u ++ w).getD k 0 = u.getD k 0 := by
  induction u generalizing k with
  | nil => simp at hk
  | cons a u ih =>
    cases k with
    | zero => rfl
    | succ k => simpa using ih k (by simpa using hk)

theorem getD_append_len (u v : List Nat) (a : Nat) :
    (u ++ a :: v).getD u.length 0 = a := by
  induction u with
  | nil => rfl
  | cons b u ih => simpa using ih

theorem getD_append_gt (u v : List Nat) (a : Nat) (j : Nat) :
    (u ++ a :: v).getD (u.length + 1 + j) 0 = v.getD j 0 := by
  induction u with
  | nil => simp [List.getD, Nat.add_comm]
  | cons b u ih =>
    have : (b :: u).length + 1 + j = (u.length + 1 + j) + 1 := by
      simp; omega
    rw [this]
    simpa using ih

/-- Replacing one byte by a different byte gives Levenshtein distance
exactly 1. -/
theorem lev_single_sub (u v : List Nat) (a b : Nat) (hab : a ≠ b) :
    LevenshteinDistance (u ++ a :: v) (u ++ b :: v) = 1 := by
  set x := u ++ a :: v with hx
  set y := u ++ b :: v with hy
  have hxlen : x.length = u.length + 1 + v.length := by simp [hx]; omega
  have hylen : y.length = u.length + 1 + v.length := by simp [hy]; omega
  have hcd : countDiff x y (u.length + 1 + v.length) ≤ 1 := by
    have h1 : countDiff x y ((u.length + 1) + v.length) =
        countDiff x y (u.length + 1) := by
      refine countDiff_stable x y (u.length + 1) v.length fun k hk hk' => ?_
      obtain ⟨j, rfl⟩ : ∃ j, k = u.length + 1 + j :=
        ⟨k - (u.length + 1), by omega⟩
      rw [hx, hy, getD_append_gt, getD_append_gt]
    have h0 : countDiff x y u.length = 0 := by
      refine countDiff_eq_zero x y u.length fun k hk => ?_
      rw [hx, hy, getD_append_lt _ _ _ hk, getD_append_lt _ _ _ hk]
    have h2 : countDiff x y (u.length + 1) =
        countDiff x y u.length + levCost x y u.length u.length := rfl
    have hc1 := levCost_le_one x y u.length u.length
    omega
  have hd_le : LevenshteinDistance x y ≤ 1 := by
    have : LevenshteinDistance x y = levRow x y x.length y.length := by
      unfold LevenshteinDistance
      rw [if_neg (by omega), if_neg (by omega)]
    rw [this, hxlen, hylen]
    exact le_trans (levRow_diag_le_countDiff x y _) hcd
  have hxy : x ≠ y := by
    intro hxyeq
    have : x.getD u.length 0 = y.getD u.length 0 := by rw [hxyeq]
    rw [hx, hy, getD_append_len, getD_append_len] at this
    exact hab this
  have hd_ne : LevenshteinDistance x y ≠ 0 := by
    intro h0
    exact hxy (eq_of_levenshteinDistance_eq_zero x y h0)
  omega

/-! ## bloom_filter.go : CandidateGenerator

The generator operates on Go strings byte-wise (`word[:i]`, `word[i+1:]`,
`rune(word[i])`) but only ever splices runes of its ASCII alphabet or of the
ASCII keyboard table, and `range word` iterates rune positions, so rune-level
splicing is the faithful reading; it is modelled at the rune level. -/

/-- Go `strings.ToLower` applies Unicode simple case mapping; the case
mapping is modelled on the ASCII range (identity elsewhere), which agrees
with Go on every code point this development evaluates or that the
generator's ASCII tables can touch. -/
def toLowerGo (c : Nat) : Nat := if 65 ≤ c ∧ c ≤ 90 then c + 32 else c

/-- `cg.alphabet` (bloom_filter.go, `NewCandidateGenerator`). -/
def cgAlphabet : List Nat := runes "abcdefghijklmnopqrstuvwxyz"

/-- The QWERTY adjacency table of `GenerateCommonTypos` (bloom_filter.go),
entry for entry. -/
def kbTable : List (Nat × List Nat) :=
  [(Char.toNat 'q', runes "wa"), (Char.toNat 'w', runes "qeas"),
   (Char.toNat 'e', runes "wrsd"), (Char.toNat 'r', runes "etdf"),
   (Char.toNat 't', runes "ryfg"), (Char.toNat 'y', runes "tugh"),
   (Char.toNat 'u', runes "yihj"), (Char.toNat 'i', runes "uojk"),
   (Char.toNat 'o', runes "ipkl"), (Char.toNat 'p', runes "ol"),
   (Char.toNat 'a', runes "qwsz"), (Char.toNat 's', runes "awedxz"),
   (Char.toNat 'd', runes "serfcx"), (Char.toNat 'f', runes "drtgvc"),
   (Char.toNat 'g', runes "ftyhbv"), (Char.toNat 'h', runes "gyujnb"),
   (Char.toNat 'j', runes "huikmn"), (Char.toNat 'k', runes "jiolm"),
   (Char.toNat 'l', runes "kop"), (Char.toNat 'z', runes "asx"),
   (Char.toNat 'x', runes "zsdc"), (Char.toNat 'c', runes "xdfv"),
   (Char.toNat 'v', runes "cfgb"), (Char.toNat 'b', runes "vghn"),
   (Char.toNat 'n', runes "bhjm"), (Char.toNat 'm', runes "njk")]

/-- The map lookup `keyboard[char]`; a missing key contributes nothing. -/
def keyboard (c : Nat) : List Nat :=
  match kbTable.find? (fun p => decide (p.1 = c)) with
  | some p => p.2
  | none => []

/-- `GenerateCommonTypos` (bloom_filter.go): lowercase the word, then for
each position whose character has keyboard neighbours, one candidate per
neighbour substituted at that position. The Go map used for deduplication
iterates in unspecified order; the result is modelled as the deduplicated
list in generation order. -/
def GenerateCommonTypos (word : Word) : List Word :=
  let w := word.map toLowerGo
  (((List.range w.length).flatMap fun i =>
    (keyboard (w.getD i 0)).map fun n => w.take i ++ n :: w.drop (i + 1))).dedup

/-- All edits at distance one of `generateCandidatesAtDistance`
(bloom_filter.go): deletions, insertions, substitutions, adjacent
transpositions, in the source's order. -/
def editOnce (word : Word) : List Word :=
  ((List.range word.length).map fun i => word.take i ++ word.drop (i + 1)) ++
  ((List.range (word.length + 1)).flatMap fun i =>
    cgAlphabet.map fun c => word.take i ++ c :: word.drop i) ++
  ((List.range word.length).flatMap fun i =>
    (cgAlphabet.filter fun c => decide (c ≠ word.getD i 0)).map fun c =>
      word.take i ++ c :: word.drop (i + 1)) ++
  ((List.range (word.length - 1)).map fun i =>
    word.take i ++ word.getD (i + 1) 0 :: word.getD i 0 :: word.drop (i + 2))

/-- `generateCandidatesAtDistance` (bloom_filter.go): at distance 1 collect
each single edit; at greater distance, recurse on every single edit with the
distance reduced by one. -/
def generateCandidatesAtDistance (word : Word) : Nat → List Word
  | 0 => [word]
  | d + 1 =>
    if d = 0 then editOnce word
    else (editOnce word).flatMap fun w2 => generateCandidatesAtDistance w2 d

/-- `GenerateCandidates` (bloom_filter.go): lowercase, then union the
candidates of every distance `1..maxDistance`, deduplicated. -/
def GenerateCandidates (word : Word) (maxDistance : Nat) : List Word :=
  (((List.range' 1 maxDistance).flatMap fun d =>
    generateCandidatesAtDistance (word.map toLowerGo) d)).dedup

/-- Every table entry maps an ASCII key to ASCII neighbours distinct from
the key. -/
theorem kbTable_sound :
    ∀ p ∈ kbTable, p.1 < 128 ∧ ∀ n ∈ p.2, n < 128 ∧ n ≠ p.1 := by decide

theorem keyboard_sound (c n : Nat) (h : n ∈ keyboard c) :
    n < 128 ∧ n ≠ c ∧ c < 128 := by
  unfold keyboard at h
  cases hfind : kbTable.find? (fun p => decide (p.1 = c)) with
  | none => rw [hfind] at h; simp at h
  | some p =>
    rw [hfind] at h
    have hmem : p ∈ kbTable := List.mem_of_find?_eq_some hfind
    have hkey : p.1 = c := by simpa using List.find?_some hfind
    obtain ⟨hp1, hp2⟩ := kbTable_sound p hmem
    obtain ⟨hn1, hn2⟩ := hp2 n h
    exact ⟨hn1, hkey ▸ hn2, hkey ▸ hp1⟩

theorem take_getD_drop (l : List Nat) (i : Nat) (h : i < l.length) :
    l = l.take i ++ l.getD i 0 :: l.drop (i + 1) := by
  induction l generalizing i with
  | nil => simp at h
  | cons a l ih =>
    cases i with
    | zero => simp
    | succ i =>
      have := ih i (by simpa using h)
      simpa using this

theorem utf8EncodeChar_ascii (c : Nat) (h : c < 128) :
    utf8EncodeChar c = [c] := by
  unfold utf8EncodeChar
  rw [if_pos h]

theorem utf8Encode_append (u v : List Nat) :
    utf8Encode (u ++ v) = utf8Encode u ++ utf8Encode v := by
  simp [utf8Encode]

theorem utf8Encode_cons (a : Nat) (v : List Nat) :
    utf8Encode (a :: v) = utf8EncodeChar a ++ utf8Encode v := rfl

/-- **C8.** Every string returned by `GenerateCommonTypos w` is the
lowercased `w` with exactly one character substituted by a keyboard-adjacent
key of the QWERTY table, and is at Levenshtein distance exactly 1 (on the
UTF-8 bytes the distance function measures) from the lowercased input. -/
theorem generateCommonTypos_single_substitution (word c : Word)
    (h : c ∈ GenerateCommonTypos word) :
    ∃ i n, i < (word.map toLowerGo).length ∧
      n ∈ keyboard ((word.map toLowerGo).getD i 0) ∧
      n ≠ (word.map toLowerGo).getD i 0 ∧
      c = (word.map toLowerGo).take i ++ n :: (word.map toLowerGo).drop (i + 1) ∧
      LevenshteinDistance (utf8Encode (word.map toLowerGo)) (utf8Encode c) = 1 := by
  set lw := word.map toLowerGo with hlw
  have hmem : c ∈ (((List.range lw.length).flatMap fun i =>
      (keyboard (lw.getD i 0)).map fun n =>
        lw.take i ++ n :: lw.drop (i + 1))).dedup := h
  have h' := List.mem_dedup.mp hmem
  obtain ⟨i, hi, hc⟩ := List.mem_flatMap.mp h'
  obtain ⟨n, hn, rfl⟩ := List.mem_map.mp hc
  have hilt : i < lw.length := List.mem_range.mp hi
  obtain ⟨hn128, hnne, hx128⟩ := keyboard_sound _ n hn
  refine ⟨i, n, hilt, hn, hnne, rfl, ?_⟩
  have hsplit := take_getD_drop lw i hilt
  have hlhs : utf8Encode lw =
      utf8Encode (lw.take i) ++ lw.getD i 0 :: utf8Encode (lw.drop (i + 1)) := by
    conv_lhs => rw [hsplit]
    rw [utf8Encode_append, utf8Encode_cons, utf8EncodeChar_ascii _ hx128]
    rfl
  have hrhs : utf8Encode (lw.take i ++ n :: lw.drop (i + 1)) =
      utf8Encode (lw.take i) ++ n :: utf8Encode (lw.drop (i + 1)) := by
    rw [utf8Encode_append, utf8Encode_cons, utf8EncodeChar_ascii _ hn128]
    rfl
  rw [hlhs, hrhs]
  exact lev_single_sub _ _ _ _ (fun hxn => hnne hxn.symm)

/-- Witness for C8 at a concrete input: the candidate `"q"` generated from
the word `"a"`. -/
theorem generateCommonTypos_single_substitution_witness :
    runes "q" ∈ GenerateCommonTypos (runes "a") ∧
      (∃ i n, i < ((runes "a").map toLowerGo).length ∧
        n ∈ keyboard (((runes "a").map toLowerGo).getD i 0) ∧
        n ≠ ((runes "a").map toLowerGo).getD i 0 ∧
        runes "q" = ((runes "a").map toLowerGo).take i ++
          n :: ((runes "a").map toLowerGo).drop (i + 1) ∧
        LevenshteinDistance (utf8Encode ((runes "a").map toLowerGo))
          (utf8Encode (runes "q")) = 1) :=
  ⟨by decide, generateCommonTypos_single_substitution (runes "a") (runes "q")
    (by decide)⟩

/-! ## language.go : Language registry and detection -/

/-- `Language` (language.go) is a string type; language codes are words.
(The source name `Language` collides with a Mathlib declaration, hence
`Lang`.) -/
abbrev Lang := Word

def English : Lang := runes "en"
def Persian : Lang := runes "fa"
def Arabic : Lang := runes "ar"
def French : Lang := runes "fr"
def Spanish : Lang := runes "es"
def German : Lang := runes "de"
def Italian : Lang := runes "it"
def Russian : Lang := runes "ru"
def Chinese : Lang := runes "zh"
def Japanese : Lang := runes "ja"
def Korean : Lang := runes "ko"

/-- Go `unicode.IsSpace`: the Latin-1 white space set plus the Unicode
White_Space property, modelled by its code-point ranges. -/
def isSpaceGo (c : Nat) : Bool :=
  decide (c = 9 ∨ c = 10 ∨ c = 11 ∨ c = 12 ∨ c = 13 ∨ c = 32 ∨ c = 0x85 ∨
    c = 0xA0 ∨ c = 0x1680 ∨ (0x2000 ≤ c ∧ c ≤ 0x200A) ∨ c = 0x2028 ∨
    c = 0x2029 ∨ c = 0x202F ∨ c = 0x205F ∨ c = 0x3000)

/-- Go `strings.TrimSpace`: remove leading and trailing white space. -/
def trimSpace (w : Word) : Word :=
  ((w.dropWhile isSpaceGo).reverse.dropWhile isSpaceGo).reverse

/-- `normalizeEnglish` (language.go): `ToLower ∘ TrimSpace`. -/
def normalizeEnglish (w : Word) : Word := (trimSpace w).map toLowerGo

/-- `normalizePersian` (language.go): trim, then replace each ASCII digit
with the corresponding Persian digit (the ten `ReplaceAll` calls act on
disjoint single code points, so they are one pointwise map). -/
def normalizePersian (w : Word) : Word :=
  (trimSpace w).map fun c =>
    if 48 ≤ c ∧ c ≤ 57 then 0x6F0 + (c - 48) else c

/-- `normalizeArabic` (language.go). -/
def normalizeArabic (w : Word) : Word := trimSpace w

/-- `normalizeFrench` (language.go). -/
def normalizeFrench (w : Word) : Word := (trimSpace w).map toLowerGo

/-- `normalizeSpanish` (language.go). -/
def normalizeSpanish (w : Word) : Word := (trimSpace w).map toLowerGo

/-- `normalizeGerman` (language.go). -/
def normalizeGerman (w : Word) : Word := (trimSpace w).map toLowerGo

/-- `normalizeItalian` (language.go). -/
def normalizeItalian (w : Word) : Word := (trimSpace w).map toLowerGo

/-- `normalizeRussian` (language.go). -/
def normalizeRussian (w : Word) : Word := (trimSpace w).map toLowerGo

/-- `normalizeChinese` (language.go). -/
def normalizeChinese (w : Word) : Word := trimSpace w

/-- `normalizeJapanese` (language.go). -/
def normalizeJapanese (w : Word) : Word := trimSpace w

/-- `normalizeKorean` (language.go). -/
def normalizeKorean (w : Word) : Word := trimSpace w

/-- `LanguageInfo` (language.go). -/
structure LanguageInfo where
  Code : Lang
  Name : Word
  Direction : Word
  Alphabet : List Nat
  IsRTL : Bool
  Normalizer : Word → Word

/-- `GetLanguageInfo` (language.go), profile for profile; an unrecognized
code silently falls back to the English profile. -/
def GetLanguageInfo (lang : Lang) : LanguageInfo :=
  if lang = English then
    ⟨English, runes "English", runes "ltr",
      runes "abcdefghijklmnopqrstuvwxyz", false, normalizeEnglish⟩
  else if lang = Persian then
    ⟨Persian, runes "Persian", runes "rtl",
      runes "ابپتثجچحخدذرزژسشصضطظعغفقکگلمنوهی", true, normalizePersian⟩
  else if lang = Arabic then
    ⟨Arabic, runes "Arabic", runes "rtl",
      runes "ابتثجحخدذرزسشصضطظعغفقكلمنهوي", true, normalizeArabic⟩
  else if lang = French then
    ⟨French, runes "French", runes "ltr",
      runes "abcdefghijklmnopqrstuvwxyzàâäéèêëïîôöùûüÿç", false, normalizeFrench⟩
  else if lang = Spanish then
    ⟨Spanish, runes "Spanish", runes "ltr",
      runes "abcdefghijklmnopqrstuvwxyzñáéíóúü", false, normalizeSpanish⟩
  else if lang = German then
    ⟨German, runes "German", runes "ltr",
      runes "abcdefghijklmnopqrstuvwxyzäöüß", false, normalizeGerman⟩
  else if lang = Italian then
    ⟨Italian, runes "Italian", runes "ltr",
      runes "abcdefghijklmnopqrstuvwxyzàèéìíîòóùú", false, normalizeItalian⟩
  else if lang = Russian then
    ⟨Russian, runes "Russian", runes "ltr",
      runes "абвгдеёжзийклмнопрстуфхцчшщъыьэюя", false, normalizeRussian⟩
  else if lang = Chinese then
    ⟨Chinese, runes "Chinese", runes "ltr", [], false, normalizeChinese⟩
  else if lang = Japanese then
    ⟨Japanese, runes "Japanese", runes "ltr",
      runes "あいうえおかきくけこさしすせそたちつてとなにぬねのはひふへほまみむめもやゆよらりるれろわをん",
      false, normalizeJapanese⟩
  else if lang = Korean then
    ⟨Korean, runes "Korean", runes "ltr",
      runes "ㄱㄴㄷㄹㅁㅂㅅㅇㅈㅊㅋㅌㅍㅎㅏㅑㅓㅕㅗㅛㅜㅠㅡㅣ", false, normalizeKorean⟩
  else
    ⟨English, runes "English", runes "ltr",
      runes "abcdefghijklmnopqrstuvwxyz", false, normalizeEnglish⟩

/-- Go `unicode.IsLetter` (category L), modelled by its principal
code-point ranges; only the alphabet-less CJK validity branches consult it,
and no claim depends on its exact boundary. -/
def isLetterGo (c : Nat) : Bool :=
  decide ((65 ≤ c ∧ c ≤ 90) ∨ (97 ≤ c ∧ c ≤ 122) ∨ (0xC0 ≤ c ∧ c ≤ 0x2AF ∧
      c ≠ 0xD7 ∧ c ≠ 0xF7) ∨ (0x370 ≤ c ∧ c ≤ 0x3FF) ∨
    (0x400 ≤ c ∧ c ≤ 0x4FF) ∨ (0x531 ≤ c ∧ c ≤ 0x556) ∨
    (0x5D0 ≤ c ∧ c ≤ 0x5EA) ∨ (0x620 ≤ c ∧ c ≤ 0x64A) ∨
    (0x3041 ≤ c ∧ c ≤ 0x3096) ∨ (0x30A1 ≤ c ∧ c ≤ 0x30FA) ∨
    (0x4E00 ≤ c ∧ c ≤ 0x9FFF) ∨ (0xAC00 ≤ c ∧ c ≤ 0xD7A3))

/-- Go `unicode.Is(unicode.Han, r)`, modelled by the principal Han ranges. -/
def isHanGo (c : Nat) : Bool :=
  decide ((0x4E00 ≤ c ∧ c ≤ 0x9FFF) ∨ (0x3400 ≤ c ∧ c ≤ 0x4DBF) ∨
    (0xF900 ≤ c ∧ c ≤ 0xFAFF))

/-- Go `unicode.Is(unicode.Hiragana, r)`. -/
def isHiraganaGo (c : Nat) : Bool := decide (0x3041 ≤ c ∧ c ≤ 0x3096)

/-- Go `unicode.Is(unicode.Katakana, r)`, principal range. -/
def isKatakanaGo (c : Nat) : Bool := decide (0x30A1 ≤ c ∧ c ≤ 0x30FA)

/-- Go `unicode.Is(unicode.Hangul, r)`, principal ranges. -/
def isHangulGo (c : Nat) : Bool :=
  decide ((0xAC00 ≤ c ∧ c ≤ 0xD7A3) ∨ (0x1100 ≤ c ∧ c ≤ 0x11FF) ∨
    (0x3131 ≤ c ∧ c ≤ 0x318E))

/-- `IsValidWordForLanguage` (language.go): empty words are invalid; for an
empty alphabet the Chinese/Japanese/Korean category checks apply; otherwise
every code point must be in the alphabet or be white space. -/
def IsValidWordForLanguage (word : Word) (lang : Lang) : Bool :=
  if word.length = 0 then false
  else
    let langInfo := GetLanguageInfo lang
    if langInfo.Alphabet = [] ∧ lang = Chinese then
      word.all fun r => isHanGo r || isLetterGo r
    else if langInfo.Alphabet = [] ∧ lang = Japanese then
      word.all fun r => isHiraganaGo r || isKatakanaGo r || isHanGo r || isLetterGo r
    else if langInfo.Alphabet = [] ∧ lang = Korean then
      word.all fun r => isHangulGo r || isLetterGo r
    else
      word.all fun r => decide (r ∈ langInfo.Alphabet) || isSpaceGo r

/-- `DetectLanguage` (language.go): the empty word maps to English; then
ordered whole-word scans per script family, Arabic-family ranges first
(mapping to Persian), then Cyrillic, CJK ideographs, Hiragana and Hangul;
no match defaults to English. -/
def DetectLanguage (word : Word) : Lang :=
  if word.length = 0 then English
  else if word.any fun r =>
      decide ((0x600 ≤ r ∧ r ≤ 0x6FF) ∨ (0x750 ≤ r ∧ r ≤ 0x77F) ∨
        (0x8A0 ≤ r ∧ r ≤ 0x8FF) ∨ (0xFB50 ≤ r ∧ r ≤ 0xFDFF) ∨
        (0xFE70 ≤ r ∧ r ≤ 0xFEFF)) then Persian
  else if word.any fun r => decide (0x400 ≤ r ∧ r ≤ 0x4FF) then Russian
  else if word.any fun r => decide (0x4E00 ≤ r ∧ r ≤ 0x9FFF) then Chinese
  else if word.any fun r => decide (0x3040 ≤ r ∧ r ≤ 0x309F) then Japanese
  else if word.any fun r => decide (0xAC00 ≤ r ∧ r ≤ 0xD7AF) then Korean
  else English

/-- `GetSupportedLanguages` (language.go). -/
def GetSupportedLanguages : List Lang :=
  [English, Persian, Arabic, French, Spanish, German,
   Italian, Russian, Chinese, Japanese, Korean]

/-- **C9.** `DetectLanguage` returns English for "hello", Persian for
"سلام", Russian for "привет" and Chinese for "你好". -/
theorem detectLanguage_concrete :
    DetectLanguage (runes "hello") = English ∧
      DetectLanguage (runes "سلام") = Persian ∧
      DetectLanguage (runes "привет") = Russian ∧
      DetectLanguage (runes "你好") = Chinese := by decide

/-! ## did_you_mean.go : the spell checker -/

/-- `Suggestion` (did_you_mean.go); the `float64` score is a rational. -/
structure Suggestion where
  Word : Word
  Similarity : ℚ

/-- `DidYouMean` (did_you_mean.go). The per-language Go maps are functions
to `Option`, a `nil` entry being `none`; the dictionary `map[string]bool`
(only ever storing `true`) is its key set, a list with set-semantic
insertion. The `candidates *CandidateGenerator` field holds no state beyond
the fixed alphabet constant, so it needs no field here. -/
structure DidYouMean where
  bloomFilters : Lang → Option BloomFilter
  dictionaries : Lang → Option (List Word)
  currentLang : Lang

/-- `NewDidYouMean` (did_you_mean.go): empty maps, English as current
language. Both parameters are accepted and ignored by the source. -/
def NewDidYouMean (dictionarySize : Nat) (numHashFuncs : Int) : DidYouMean :=
  { bloomFilters := fun _ => none
    dictionaries := fun _ => none
    currentLang := English }

/-- Point update of a per-language map. -/
def updateMap {α : Type} (m : Lang → Option α) (k : Lang) (v : α) :
    Lang → Option α :=
  fun q => if q = k then some v else m q

/-- One iteration of the word loop of `AddWordsForLanguage`
(did_you_mean.go): normalize; if valid for the language, add the normalized
word to the filter and the dictionary, else skip it. -/
def addWordStep (lang : Lang) (p : BloomFilter × List Word) (word : Word) :
    BloomFilter × List Word :=
  let normalized := (GetLanguageInfo lang).Normalizer word
  if IsValidWordForLanguage normalized lang then
    (p.1.Add normalized, p.2.insert normalized)
  else p

/-- The initialize-if-nil step opening `AddWordsForLanguage`
(did_you_mean.go): on first use of a language its filter is created —
hardcoded `NewBloomFilter(10000, 7)` — together with an empty dictionary.
(If the filter existed while the dictionary map were `nil`, Go would panic
on the map write; no public operation produces that state, and the model
reads the missing dictionary as empty.) -/
def awflInit (dym : DidYouMean) (lang : Lang) : BloomFilter × List Word :=
  match dym.bloomFilters lang with
  | none => (NewBloomFilter 10000 7, [])
  | some bf => (bf, (dym.dictionaries lang).getD [])

/-- `AddWordsForLanguage` (did_you_mean.go): initialize the language's pair
if needed, then run the word loop over it. -/
def DidYouMean.AddWordsForLanguage (dym : DidYouMean) (words : List Word)
    (lang : Lang) : DidYouMean :=
  let p := words.foldl (addWordStep lang) (awflInit dym lang)
  { dym with
    bloomFilters := updateMap dym.bloomFilters lang p.1
    dictionaries := updateMap dym.dictionaries lang p.2 }

/-- `AddWords` (did_you_mean.go): add for the current language. -/
def DidYouMean.AddWords (dym : DidYouMean) (words : List Word) : DidYouMean :=
  dym.AddWordsForLanguage words dym.currentLang

/-- `SetLanguage` (did_you_mean.go). -/
def DidYouMean.SetLanguage (dym : DidYouMean) (lang : Lang) : DidYouMean :=
  { dym with currentLang := lang }

/-- `GetCurrentLanguage` (did_you_mean.go). -/
def DidYouMean.GetCurrentLanguage (dym : DidYouMean) : Lang := dym.currentLang

/-- `IsCorrectForLanguage` (did_you_mean.go): false when the language was
never initialized; else the normalized word must pass the filter AND the
exact dictionary. -/
def DidYouMean.IsCorrectForLanguage (dym : DidYouMean) (word : Word)
    (lang : Lang) : Bool :=
  match dym.bloomFilters lang, dym.dictionaries lang with
  | some bf, some d =>
    let normalized := (GetLanguageInfo lang).Normalizer word
    bf.Contains normalized && decide (normalized ∈ d)
  | _, _ => false

/-- `IsCorrect` (did_you_mean.go). -/
def DidYouMean.IsCorrect (dym : DidYouMean) (word : Word) : Bool :=
  dym.IsCorrectForLanguage word dym.currentLang

/-- Comparator of the descending `sort.Slice` call in
`GetSuggestionsForLanguage`: `a` may precede `b` iff
`b.Similarity ≤ a.Similarity`. Go's sort is unstable and the candidate
order is map-iteration order, so any tie order is a faithful model; the
model fixes one with `mergeSort`. -/
def suggestionLe (a b : Suggestion) : Bool :=
  decide (b.Similarity ≤ a.Similarity)

/-- The body of `GetSuggestionsForLanguage` (did_you_mean.go) once the
language's filter and dictionary exist, applied to the already-normalized
input: nil for an invalid normalized word; a correct word short-circuits to
itself at similarity 1 (before any truncation); otherwise generate
edit-distance and typo candidates, keep those passing filter AND
dictionary, score against the normalized input, sort descending and
truncate to `maxSuggestions`. -/
def getSuggestionsCore (dym : DidYouMean) (bf : BloomFilter) (d : List Word)
    (normalized : Word) (maxSuggestions maxEditDistance : Nat) (lang : Lang) :
    List Suggestion :=
  if ¬ IsValidWordForLanguage normalized lang = true then []
  else if dym.IsCorrectForLanguage normalized lang then
    [{ Word := normalized, Similarity := 1 }]
  else
    let candidates := GenerateCandidates normalized maxEditDistance ++
      GenerateCommonTypos normalized
    let validCandidates := candidates.filter fun c =>
      bf.Contains c && decide (c ∈ d)
    let suggestions := validCandidates.map fun c =>
      ({ Word := c,
         Similarity := CalculateSimilarity (utf8Encode normalized)
           (utf8Encode c) } : Suggestion)
    let sorted := suggestions.mergeSort suggestionLe
    if sorted.length > maxSuggestions then sorted.take maxSuggestions
    else sorted

/-- `GetSuggestionsForLanguage` (did_you_mean.go): nil for an uninitialized
language, else the pipeline body on the normalized input. -/
def DidYouMean.GetSuggestionsForLanguage (dym : DidYouMean) (word : Word)
    (maxSuggestions maxEditDistance : Nat) (lang : Lang) : List Suggestion :=
  match dym.bloomFilters lang, dym.dictionaries lang with
  | some bf, some d =>
    getSuggestionsCore dym bf d ((GetLanguageInfo lang).Normalizer word)
      maxSuggestions maxEditDistance lang
  | _, _ => []

/-- `GetSuggestions` (did_you_mean.go). -/
def DidYouMean.GetSuggestions (dym : DidYouMean) (word : Word)
    (maxSuggestions maxEditDistance : Nat) : List Suggestion :=
  dym.GetSuggestionsForLanguage word maxSuggestions maxEditDistance
    dym.currentLang

/-- `SuggestForLanguage` (did_you_mean.go): first of the (at most one)
suggestions at distance cap 2, else the word as passed in. -/
def DidYouMean.SuggestForLanguage (dym : DidYouMean) (word : Word)
    (lang : Lang) : Word :=
  match dym.GetSuggestionsForLanguage word 1 2 lang with
  | s :: _ => s.Word
  | [] => word

/-- `Suggest` (did_you_mean.go). -/
def DidYouMean.Suggest (dym : DidYouMean) (word : Word) : Word :=
  dym.SuggestForLanguage word dym.currentLang

/-- States reachable from `NewDidYouMean` by the public mutating
operations; the read-only operations do not change the state.
`LoadDefaultDictionary lang` (did_you_mean.go) delegates to
`AddWordsForLanguage (GetWordsForLanguage lang) lang`, where
`GetWordsForLanguage` is the external default word-list collaborator, not
part of this repository, its content unspecified by the spec; its rule
therefore admits an arbitrary word list, covering every possible default
word list. -/
inductive Reachable : DidYouMean → Prop
  | new (dictionarySize : Nat) (numHashFuncs : Int) :
      Reachable (NewDidYouMean dictionarySize numHashFuncs)
  | addWords (s : DidYouMean) (ws : List Word) :
      Reachable s → Reachable (s.AddWords ws)
  | addWordsForLanguage (s : DidYouMean) (ws : List Word) (lang : Lang) :
      Reachable s → Reachable (s.AddWordsForLanguage ws lang)
  | setLanguage (s : DidYouMean) (lang : Lang) :
      Reachable s → Reachable (s.SetLanguage lang)
  | loadDefaultDictionary (s : DidYouMean) (ws : List Word) (lang : Lang) :
      Reachable s → Reachable (s.AddWordsForLanguage ws lang)

/-- Per-language state invariant: filter and dictionary exist together, the
filter is well-formed, and every dictionary word is a member of the
filter. -/
def StateInv (s : DidYouMean) : Prop :=
  ∀ lang : Lang,
    match s.bloomFilters lang, s.dictionaries lang with
    | none, none => True
    | some bf, some d => bf.WF ∧ ∀ w ∈ d, bf.Contains w = true
    | _, _ => False

/-! ### Invariant preservation lemmas -/

theorem addWordStep_eq (lang : Lang) (p : BloomFilter × List Word) (w : Word) :
    addWordStep lang p w =
      if IsValidWordForLanguage ((GetLanguageInfo lang).Normalizer w) lang then
        (p.1.Add ((GetLanguageInfo lang).Normalizer w),
         p.2.insert ((GetLanguageInfo lang).Normalizer w))
      else p := rfl

theorem foldl_addWordStep_wf (lang : Lang) (ws : List Word)
    (p : BloomFilter × List Word) (h : p.1.WF) :
    (ws.foldl (addWordStep lang) p).1.WF := by
  induction ws generalizing p with
  | nil => exact h
  | cons x ws ih =>
    refine ih (addWordStep lang p x) ?_
    rw [addWordStep_eq]
    split
    · exact p.1.wf_add _ h
    · exact h

theorem foldl_addWordStep_contains (lang : Lang) (ws : List Word)
    (p : BloomFilter × List Word) (w : Word) (h : p.1.Contains w = true) :
    (ws.foldl (addWordStep lang) p).1.Contains w = true := by
  induction ws generalizing p with
  | nil => exact h
  | cons x ws ih =>
    refine ih (addWordStep lang p x) ?_
    rw [addWordStep_eq]
    split
    · exact p.1.contains_mono w _ h
    · exact h

theorem foldl_addWordStep_mem (lang : Lang) (ws : List Word)
    (p : BloomFilter × List Word) (w : Word) (h : w ∈ p.2) :
    w ∈ (ws.foldl (addWordStep lang) p).2 := by
  induction ws generalizing p with
  | nil => exact h
  | cons x ws ih =>
    refine ih (addWordStep lang p x) ?_
    rw [addWordStep_eq]
    split
    · exact List.mem_insert_iff.mpr (Or.inr h)
    · exact h

theorem foldl_addWordStep_inv (lang : Lang) (ws : List Word)
    (p : BloomFilter × List Word) (hwf : p.1.WF)
    (hall : ∀ w ∈ p.2, p.1.Contains w = true) :
    ∀ w ∈ (ws.foldl (addWordStep lang) p).2,
      (ws.foldl (addWordStep lang) p).1.Contains w = true := by
  induction ws generalizing p with
  | nil => exact hall
  | cons x ws ih =>
    refine ih (addWordStep lang p x) ?_ ?_
    · rw [addWordStep_eq]
      split
      · exact p.1.wf_add _ hwf
      · exact hwf
    · rw [addWordStep_eq]
      split
      · intro w hw
        rcases List.mem_insert_iff.mp hw with hw | hw
        · subst hw
          exact p.1.contains_add_self _ hwf
        · exact p.1.contains_mono w _ (hall w hw)
      · exact hall

theorem foldl_addWordStep_adds (lang : Lang) (ws : List Word)
    (p : BloomFilter × List Word) (x : Word) (hx : x ∈ ws) (hwf : p.1.WF)
    (hv : IsValidWordForLanguage ((GetLanguageInfo lang).Normalizer x) lang
      = true) :
    (ws.foldl (addWordStep lang) p).1.Contains
        ((GetLanguageInfo lang).Normalizer x) = true ∧
      (GetLanguageInfo lang).Normalizer x ∈ (ws.foldl (addWordStep lang) p).2 := by
  induction ws generalizing p with
  | nil => simp at hx
  | cons y ws ih =>
    rcases List.mem_cons.mp hx with hxy | hxy
    · subst hxy
      have hstep : addWordStep lang p x =
          (p.1.Add ((GetLanguageInfo lang).Normalizer x),
           p.2.insert ((GetLanguageInfo lang).Normalizer x)) := by
        rw [addWordStep_eq, if_pos hv]
      constructor
      · refine foldl_addWordStep_contains lang ws _ _ ?_
        rw [hstep]
        exact p.1.contains_add_self _ hwf
      · refine foldl_addWordStep_mem lang ws _ _ ?_
        rw [hstep]
        exact List.mem_insert_iff.mpr (Or.inl rfl)
    · refine ih (addWordStep lang p y) hxy ?_
      rw [addWordStep_eq]
      split
      · exact p.1.wf_add _ hwf
      · exact hwf

theorem awflInit_wf (s : DidYouMean) (lang : Lang) (h : StateInv s) :
    (awflInit s lang).1.WF ∧
      ∀ w ∈ (awflInit s lang).2, (awflInit s lang).1.Contains w = true := by
  have hl := h lang
  unfold awflInit
  cases hbf : s.bloomFilters lang with
  | none =>
    exact ⟨BloomFilter.wf_new 10000 7 (by norm_num), by simp⟩
  | some bf =>
    cases hd : s.dictionaries lang with
    | none => rw [hbf, hd] at hl; exact hl.elim
    | some d =>
      rw [hbf, hd] at hl
      exact ⟨hl.1, by simpa using hl.2⟩

theorem addWordsForLanguage_bloomFilters (s : DidYouMean) (ws : List Word)
    (lang : Lang) :
    (s.AddWordsForLanguage ws lang).bloomFilters =
      updateMap s.bloomFilters lang
        ((ws.foldl (addWordStep lang) (awflInit s lang)).1) := rfl

theorem addWordsForLanguage_dictionaries (s : DidYouMean) (ws : List Word)
    (lang : Lang) :
    (s.AddWordsForLanguage ws lang).dictionaries =
      updateMap s.dictionaries lang
        ((ws.foldl (addWordStep lang) (awflInit s lang)).2) := rfl

theorem stateInv_new (dictionarySize : Nat) (numHashFuncs : Int) :
    StateInv (NewDidYouMean dictionarySize numHashFuncs) := by
  intro lang
  exact trivial

theorem stateInv_addWordsForLanguage (s : DidYouMean) (ws : List Word)
    (lang : Lang) (h : StateInv s) : StateInv (s.AddWordsForLanguage ws lang) := by
  intro q
  rw [StateInv] at h
  by_cases hq : q = lang
  · subst hq
    rw [addWordsForLanguage_bloomFilters, addWordsForLanguage_dictionaries]
    unfold updateMap
    rw [if_pos rfl, if_pos rfl]
    obtain ⟨hwf, hall⟩ := awflInit_wf s q h
    exact ⟨foldl_addWordStep_wf q ws _ hwf, foldl_addWordStep_inv q ws _ hwf hall⟩
  · rw [addWordsForLanguage_bloomFilters, addWordsForLanguage_dictionaries]
    unfold updateMap
    rw [if_neg hq, if_neg hq]
    exact h q

theorem stateInv_setLanguage (s : DidYouMean) (lang : Lang) (h : StateInv s) :
    StateInv (s.SetLanguage lang) := h

theorem reachable_stateInv (s : DidYouMean) (h : Reachable s) : StateInv s := by
  induction h with
  | new a b => exact stateInv_new a b
  | addWords s ws _ ih => exact stateInv_addWordsForLanguage s ws s.currentLang ih
  | addWordsForLanguage s ws lang _ ih => exact stateInv_addWordsForLanguage s ws lang ih
  | setLanguage s lang _ ih => exact stateInv_setLanguage s lang ih
  | loadDefaultDictionary s ws lang _ ih => exact stateInv_addWordsForLanguage s ws lang ih

/-! ### Claims about the checker state -/

set_option maxRecDepth 200000

/-- The plain exact-dictionary lookup of a (already normalized) word. -/
def dictLookup (s : DidYouMean) (lang : Lang) (w : Word) : Bool :=
  match s.dictionaries lang with
  | some d => decide (w ∈ d)
  | none => false

/-- The membership-filter lookup of a (already normalized) word. -/
def filterContains (s : DidYouMean) (lang : Lang) (w : Word) : Bool :=
  match s.bloomFilters lang with
  | some bf => bf.Contains w
  | none => false

/-- **C3.** In every reachable checker state, every word stored in a
language's exact dictionary satisfies `Contains` on that language's
membership filter: the filter's member set is a superset of the
dictionary. -/
theorem dict_subset_filter (s : DidYouMean) (h : Reachable s) (lang : Lang)
    (w : Word) (hw : dictLookup s lang w = true) :
    filterContains s lang w = true := by
  have hinv := reachable_stateInv s h lang
  unfold dictLookup at hw
  unfold filterContains
  cases hbf : s.bloomFilters lang with
  | none =>
    cases hd : s.dictionaries lang with
    | none => rw [hd] at hw; exact hw
    | some d => rw [hbf, hd] at hinv; exact hinv.elim
  | some bf =>
    cases hd : s.dictionaries lang with
    | none => rw [hbf, hd] at hinv; exact hinv.elim
    | some d =>
      rw [hbf, hd] at hinv
      rw [hd] at hw
      exact hinv.2 w (of_decide_eq_true hw)

/-- Witness for C3 at a concrete reachable state. -/
theorem dict_subset_filter_witness :
    Reachable ((NewDidYouMean 10000 7).AddWordsForLanguage [runes "q"] English) ∧
      dictLookup ((NewDidYouMean 10000 7).AddWordsForLanguage [runes "q"] English)
        English (runes "q") = true ∧
      filterContains ((NewDidYouMean 10000 7).AddWordsForLanguage [runes "q"] English)
        English (runes "q") = true :=
  ⟨Reachable.addWordsForLanguage _ _ _ (Reachable.new 10000 7), by decide,
   dict_subset_filter _ (Reachable.addWordsForLanguage _ _ _ (Reachable.new 10000 7))
     English (runes "q") (by decide)⟩

/-- Refinement reference for C10, following the claim's words: the plain
exact-dictionary lookup of the normalized word, with no filter probe. -/
def IsCorrectSpec (s : DidYouMean) (word : Word) (lang : Lang) : Bool :=
  match s.dictionaries lang with
  | some d => decide ((GetLanguageInfo lang).Normalizer word ∈ d)
  | none => false

/-- **C10.** In every reachable checker state the filter probe inside
`IsCorrectForLanguage` never changes the outcome: the result equals the
plain dictionary lookup of the normalized word. -/
theorem isCorrectForLanguage_eq_dictLookup (s : DidYouMean) (h : Reachable s)
    (word : Word) (lang : Lang) :
    s.IsCorrectForLanguage word lang = IsCorrectSpec s word lang := by
  have hinv := reachable_stateInv s h lang
  unfold DidYouMean.IsCorrectForLanguage IsCorrectSpec
  cases hbf : s.bloomFilters lang with
  | none =>
    cases hd : s.dictionaries lang with
    | none => rfl
    | some d => rw [hbf, hd] at hinv; exact hinv.elim
  | some bf =>
    cases hd : s.dictionaries lang with
    | none => rw [hbf, hd] at hinv
    | some d =>
      rw [hbf, hd] at hinv
      show (bf.Contains ((GetLanguageInfo lang).Normalizer word) &&
          decide ((GetLanguageInfo lang).Normalizer word ∈ d)) =
        decide ((GetLanguageInfo lang).Normalizer word ∈ d)
      by_cases hmem : (GetLanguageInfo lang).Normalizer word ∈ d
      · have hcont := hinv.2 _ hmem
        rw [hcont, Bool.true_and]
      · have hdec : decide ((GetLanguageInfo lang).Normalizer word ∈ d) = false :=
          decide_eq_false hmem
        rw [hdec, Bool.and_false]

/-- Witness for C10 at a concrete reachable state. -/
theorem isCorrectForLanguage_eq_dictLookup_witness :
    Reachable ((NewDidYouMean 10000 7).AddWordsForLanguage [runes "q"] English) ∧
      ((NewDidYouMean 10000 7).AddWordsForLanguage [runes "q"] English).IsCorrectForLanguage
          (runes "q") English =
        IsCorrectSpec ((NewDidYouMean 10000 7).AddWordsForLanguage [runes "q"] English)
          (runes "q") English :=
  ⟨Reachable.addWordsForLanguage _ _ _ (Reachable.new 10000 7),
   isCorrectForLanguage_eq_dictLookup _
     (Reachable.addWordsForLanguage _ _ _ (Reachable.new 10000 7)) (runes "q") English⟩

/-- **C6 (amended).** After `AddWordsForLanguage words lang` on any
reachable state, `IsCorrectForLanguage w lang` returns true for every word
`w` of the list whose normalized form is valid for `lang` (the word loop
silently skips invalid words, so the claim's unrestricted form fails; see
the counterexample). `AddWords words` is literally
`AddWordsForLanguage words currentLang`, so the active-language variant is
covered by instantiating `lang`. -/
theorem addWordsForLanguage_isCorrect (s : DidYouMean) (hreach : Reachable s)
    (words : List Word) (lang : Lang) (w : Word) (hw : w ∈ words)
    (hv : IsValidWordForLanguage ((GetLanguageInfo lang).Normalizer w) lang
      = true) :
    (s.AddWordsForLanguage words lang).IsCorrectForLanguage w lang = true := by
  have hinv := reachable_stateInv s hreach
  obtain ⟨hwf, _⟩ := awflInit_wf s lang hinv
  have hadd := foldl_addWordStep_adds lang words (awflInit s lang) w hw hwf hv
  unfold DidYouMean.IsCorrectForLanguage
  rw [addWordsForLanguage_bloomFilters, addWordsForLanguage_dictionaries]
  unfold updateMap
  rw [if_pos rfl, if_pos rfl]
  show ((words.foldl (addWordStep lang) (awflInit s lang)).1.Contains
      ((GetLanguageInfo lang).Normalizer w) &&
    decide ((GetLanguageInfo lang).Normalizer w ∈
      (words.foldl (addWordStep lang) (awflInit s lang)).2)) = true
  have hdec : decide ((GetLanguageInfo lang).Normalizer w ∈
      (words.foldl (addWordStep lang) (awflInit s lang)).2) = true :=
    decide_eq_true hadd.2
  rw [hadd.1, hdec]
  rfl

/-- The concrete input refuting C6 as stated: the word "a1" is in the added
list, but its normalized form fails English validity, so it is skipped and
reported incorrect. -/
theorem addWordsForLanguage_isCorrect_counterexample :
    ((NewDidYouMean 10000 7).AddWordsForLanguage [runes "a1"] English).IsCorrectForLanguage
      (runes "a1") English = false := by decide

/-- Witness for the amended C6 at a concrete input. -/
theorem addWordsForLanguage_isCorrect_witness :
    Reachable (NewDidYouMean 10000 7) ∧ runes "q" ∈ [runes "q"] ∧
      IsValidWordForLanguage ((GetLanguageInfo English).Normalizer (runes "q"))
        English = true ∧
      ((NewDidYouMean 10000 7).AddWordsForLanguage [runes "q"] English).IsCorrectForLanguage
        (runes "q") English = true :=
  ⟨Reachable.new 10000 7, by decide, by decide,
   addWordsForLanguage_isCorrect _ (Reachable.new 10000 7) _ English _ (by decide)
     (by decide)⟩

/-- The per-language filter parameters (bit-array size, probe count) of a
checker state. -/
def filterParams (s : DidYouMean) (lang : Lang) : Option (Nat × Nat) :=
  match s.bloomFilters lang with
  | some bf => some (bf.size, bf.numHashFuncs)
  | none => none

/-- **C2** fails on the code: `NewDidYouMean` accepts `dictionarySize` and
`numHashFuncs` but never stores them, and `AddWordsForLanguage` hardcodes
`NewBloomFilter(10000, 7)`; requesting size 5 with 2 probes still yields a
10000/7 filter. -/
theorem newDidYouMean_ignores_sizing :
    filterParams ((NewDidYouMean 5 2).AddWordsForLanguage [runes "hello"] English)
        English = some (10000, 7) ∧
      ((10000 : Nat), (7 : Nat)) ≠ ((5 : Nat), (2 : Nat)) := by decide

theorem suggestionLe_trans (a b c : Suggestion) (h1 : suggestionLe a b)
    (h2 : suggestionLe b c) : suggestionLe a c := by
  simp only [suggestionLe, decide_eq_true_eq] at *
  exact le_trans h2 h1

theorem suggestionLe_total (a b : Suggestion) :
    suggestionLe a b || suggestionLe b a := by
  simp only [suggestionLe, Bool.or_eq_true, decide_eq_true_eq]
  exact le_total b.Similarity a.Similarity

/-- Sorting by the descending comparator and truncating yields a list with
non-increasing similarity whose length is at most the cap. -/
theorem mergeSort_trunc_sorted (l : List Suggestion) (m : Nat) :
    (if (l.mergeSort suggestionLe).length > m
      then (l.mergeSort suggestionLe).take m
      else l.mergeSort suggestionLe).Pairwise
        (fun a b => b.Similarity ≤ a.Similarity) ∧
    (if (l.mergeSort suggestionLe).length > m
      then (l.mergeSort suggestionLe).take m
      else l.mergeSort suggestionLe).length ≤ m := by
  have hsorted : (l.mergeSort suggestionLe).Pairwise
      (fun a b => suggestionLe a b = true) :=
    @List.sorted_mergeSort Suggestion suggestionLe suggestionLe_trans
      suggestionLe_total l
  have hsim : (l.mergeSort suggestionLe).Pairwise
      (fun a b => b.Similarity ≤ a.Similarity) :=
    hsorted.imp fun h => by
      simpa only [suggestionLe, decide_eq_true_eq] using h
  split
  · exact ⟨hsim.sublist (List.take_sublist m _), by
      simp⟩
  · next hlen => exact ⟨hsim, by omega⟩

/-- **C4 (amended).** For every checker state (reachable ones included),
language, input word and distance cap, the suggestion list has
non-increasing similarity scores, and its length never exceeds
`maxSuggestions` provided at least one suggestion was requested — for
`maxSuggestions = 0` a correct word still short-circuits to one suggestion
before the truncation (see the counterexample). `GetSuggestions` is the
same pipeline instantiated at the current language. -/
theorem getSuggestionsForLanguage_sorted_bounded (s : DidYouMean)
    (word : Word) (maxSuggestions maxEditDistance : Nat) (lang : Lang)
    (hm : 1 ≤ maxSuggestions) :
    (s.GetSuggestionsForLanguage word maxSuggestions maxEditDistance
        lang).Pairwise (fun a b => b.Similarity ≤ a.Similarity) ∧
      (s.GetSuggestionsForLanguage word maxSuggestions maxEditDistance
        lang).length ≤ maxSuggestions := by
  have core : ∀ (bf : BloomFilter) (d : List Word) (n : Word),
      (getSuggestionsCore s bf d n maxSuggestions maxEditDistance
          lang).Pairwise (fun a b => b.Similarity ≤ a.Similarity) ∧
        (getSuggestionsCore s bf d n maxSuggestions maxEditDistance
          lang).length ≤ maxSuggestions := by
    intro bf d n
    unfold getSuggestionsCore
    by_cases hv : IsValidWordForLanguage n lang = true
    · rw [if_neg (not_not_intro hv)]
      by_cases hc : s.IsCorrectForLanguage n lang = true
      · rw [if_pos hc]
        exact ⟨by simp, by simpa using hm⟩
      · rw [if_neg hc]
        exact mergeSort_trunc_sorted _ maxSuggestions
    · rw [if_pos hv]
      exact ⟨List.Pairwise.nil, by simp⟩
  unfold DidYouMean.GetSuggestionsForLanguage
  cases s.bloomFilters lang with
  | none => exact ⟨List.Pairwise.nil, by simp⟩
  | some bf =>
    cases s.dictionaries lang with
    | none => exact ⟨List.Pairwise.nil, by simp⟩
    | some d => exact core bf d _

/-- The concrete input refuting C4 as stated: with `maxSuggestions = 0` a
correct word yields one suggestion, exceeding the requested maximum. -/
theorem getSuggestions_exceeds_requested_max :
    ¬ (((NewDidYouMean 10000 7).AddWordsForLanguage [runes "q"] English).GetSuggestionsForLanguage
        (runes "q") 0 2 English).length ≤ 0 := by decide

/-- Witness for the amended C4 at a concrete input. -/
theorem getSuggestionsForLanguage_sorted_bounded_witness :
    1 ≤ 1 ∧
      (((NewDidYouMean 10000 7).GetSuggestionsForLanguage (runes "a") 1 0
          English).Pairwise (fun a b => b.Similarity ≤ a.Similarity) ∧
        ((NewDidYouMean 10000 7).GetSuggestionsForLanguage (runes "a") 1 0
          English).length ≤ 1) :=
  ⟨by decide,
   getSuggestionsForLanguage_sorted_bounded _ _ _ _ _ (by decide)⟩

/-- **C5 (amended).** When the suggestion pipeline yields zero valid
suggestions, `SuggestForLanguage` returns the input word exactly as passed
in — the source returns the original `word`, not its normalized form (see
the counterexample). `Suggest` is the same code at the current language. -/
theorem suggestForLanguage_no_suggestions (s : DidYouMean) (word : Word)
    (lang : Lang) (h : s.GetSuggestionsForLanguage word 1 2 lang = []) :
    s.SuggestForLanguage word lang = word := by
  unfold DidYouMean.SuggestForLanguage
  rw [h]

/-- The concrete input refuting C5 as stated: on a fresh checker the
pipeline yields no suggestions for "A", and `SuggestForLanguage` returns
"A" itself, not the normalized form "a". -/
theorem suggestForLanguage_returns_original :
    (NewDidYouMean 10000 7).GetSuggestionsForLanguage (runes "A") 1 2 English
        = [] ∧
      (NewDidYouMean 10000 7).SuggestForLanguage (runes "A") English
        = runes "A" ∧
      (GetLanguageInfo English).Normalizer (runes "A") = runes "a" ∧
      runes "A" ≠ runes "a" := ⟨rfl, rfl, rfl, by decide⟩

/-- Witness for the amended C5 at a concrete input. -/
theorem suggestForLanguage_no_suggestions_witness :
    (NewDidYouMean 10000 7).GetSuggestionsForLanguage (runes "B") 1 2 English
        = [] ∧
      (NewDidYouMean 10000 7).SuggestForLanguage (runes "B") English
        = runes "B" :=
  ⟨rfl, suggestForLanguage_no_suggestions _ _ _ rfl⟩
